import Mathlib

/-!
Verification development for the Actionary repository: a dictionary lookup
front-end whose core is a resilient query-orchestration layer
(src/app/actions.ts, function searchDictionary) together with a client-side
query normalizer and result display (src/app/page.tsx, function executeSearch).

The definitions below are a shallow embedding of that code.  External platform
primitives (the JS string methods trim / replace, the ECMAScript JSON.parse
builtin, promise timeouts) are modelled explicitly; the orchestration logic
itself is translated line by line from the first variant of
src/app/actions.ts.  Backend behavior is a parameter: a function giving, for
each backend index and attempt index, what the generateContent call does
(throw with a message, exceed the timeout, or return text).
-/

set_option maxHeartbeats 1000000

namespace Actionary

/-! ### Generic list utilities modelling the JS string primitives -/

/-- Boolean test that the list `pat` is a prefix of `s`. -/
def listStartsWith {α : Type} [DecidableEq α] : List α → List α → Bool
  | [], _ => true
  | _ :: _, [] => false
  | p :: ps, c :: cs => decide (p = c) && listStartsWith ps cs

/-- Boolean test that `pat` occurs as a contiguous segment of `s`. -/
def hasSubList {α : Type} [DecidableEq α] (pat : List α) : List α → Bool
  | [] => listStartsWith pat []
  | c :: cs => listStartsWith pat (c :: cs) || hasSubList pat cs

/-- Models the JS `String.prototype.includes` test used by the orchestrator
to classify errors: does `pat` occur as a substring of `s`. -/
def strContains (s pat : String) : Bool :=
  hasSubList pat.toList s.toList

/-- The character class removed by the JS `String.prototype.trim`:
ECMAScript WhiteSpace and LineTerminator code points. -/
def jsWhitespace (c : Char) : Bool :=
  c.toNat = 0x9 || c.toNat = 0xA || c.toNat = 0xB || c.toNat = 0xC ||
  c.toNat = 0xD || c.toNat = 0x20 || c.toNat = 0xA0 || c.toNat = 0x1680 ||
  (0x2000 ≤ c.toNat && c.toNat ≤ 0x200A) || c.toNat = 0x2028 ||
  c.toNat = 0x2029 || c.toNat = 0x202F || c.toNat = 0x205F ||
  c.toNat = 0x3000 || c.toNat = 0xFEFF

/-- Models JS `trim` on a character list: drop whitespace from both ends. -/
def jsTrimList (s : List Char) : List Char :=
  ((s.dropWhile jsWhitespace).reverse.dropWhile jsWhitespace).reverse

/-- Models the JS `String.prototype.trim`. -/
def jsTrim (s : String) : String :=
  String.mk (jsTrimList s.toList)

/-- Fuel-driven worker for `removeAll`.  The fuel dominates the length of the
input, so the fuelled and unfuelled behaviors agree (proved below). -/
def removeAllF (p : Char) (ps : List Char) : Nat → List Char → List Char
  | _, [] => []
  | 0, s => s
  | n + 1, c :: cs =>
    if listStartsWith (p :: ps) (c :: cs)
    then removeAllF p ps n (cs.drop ps.length)
    else c :: removeAllF p ps n cs

/-- Models the JS `String.prototype.replace` with a global literal pattern and
an empty replacement: every non-overlapping occurrence of `p :: ps` is
deleted, scanning left to right without rescanning replaced output. -/
def removeAll (p : Char) (ps : List Char) (s : List Char) : List Char :=
  removeAllF p ps s.length s

/-- The backtick character, written via its code point. -/
def backtick : Char := Char.ofNat 96

/-- The pattern of the first replace in the cleanup line of actions.ts:
the seven characters of a json-labelled markdown fence opener. -/
def fenceJsonPat : List Char := backtick :: backtick :: ['j', 's', 'o', 'n']

/-- The pattern of the second replace: two further backticks after the head
backtick, i.e. a bare triple-backtick fence. -/
def fencePat : List Char := [backtick, backtick]

/-- Models line 140 of actions.ts:
text.replace of the json fence, then of the bare fence, then trim. -/
def stripFences (text : String) : String :=
  String.mk (jsTrimList (removeAll backtick fencePat
    (removeAll backtick fenceJsonPat text.toList)))

/-! ### The JSON value model and a model of the ECMAScript JSON.parse

JSON.parse is a platform builtin, not repository code.  The parser below
models it for the fragment the dictionary protocol uses: null, booleans,
integer numbers, strings with the standard escapes, arrays and objects, with
the four JSON whitespace characters, and rejecting trailing input.  Duplicate
object keys keep the last occurrence, as in ECMAScript (field lookup below
takes the last binding). -/

/-- A parsed JSON value. -/
inductive Json where
  | null : Json
  | bool : Bool → Json
  | num : Int → Json
  | str : String → Json
  | arr : List Json → Json
  | obj : List (String × Json) → Json

/-- The opening curly brace character, via its code point. -/
def lbrace : Char := Char.ofNat 123

/-- The closing curly brace character, via its code point. -/
def rbrace : Char := Char.ofNat 125

/-- JSON insignificant whitespace (space, tab, line feed, carriage return). -/
def jsonWs (c : Char) : Bool :=
  c = ' ' || c = '\t' || c = '\n' || c = '\r'

/-- Skip JSON whitespace. -/
def skipWs (s : List Char) : List Char :=
  s.dropWhile jsonWs

/-- Decimal digit test. -/
def isDigitChar (c : Char) : Bool :=
  '0' ≤ c && c ≤ '9'

/-- Span of leading decimal digits. -/
def spanDigits : List Char → List Char × List Char
  | [] => ([], [])
  | c :: cs =>
    if isDigitChar c then
      let r := spanDigits cs
      (c :: r.1, r.2)
    else ([], c :: cs)

/-- Value of a digit list already known to be decimal. -/
def digitsToNat : List Char → Nat → Nat
  | [], acc => acc
  | c :: cs, acc => digitsToNat cs (acc * 10 + (c.toNat - '0'.toNat))

/-- Hex digit value, if any, written with raw code points. -/
def hexVal (c : Char) : Option Nat :=
  if isDigitChar c then some (c.toNat - 48)
  else if 97 ≤ c.toNat && c.toNat ≤ 102 then some (c.toNat - 87)
  else if 65 ≤ c.toNat && c.toNat ≤ 70 then some (c.toNat - 55)
  else none

/-- Decoding table of the single-character JSON string escapes. -/
def escPairs : List (Char × Char) :=
  [('"', '"'), ('\\', '\\'), ('/', '/'), ('b', Char.ofNat 8),
   ('f', Char.ofNat 12), ('n', '\n'), ('r', '\r'), ('t', '\t')]

/-- Decode one single-character escape, if it is a legal one. -/
def decodeEsc (e : Char) : Option Char :=
  (escPairs.find? fun pc => pc.1 == e).map fun pc => pc.2

/-- Remainder of the keyword null after its first character. -/
def tailOfNull : List Char := ['u', 'l', 'l']

/-- Remainder of the keyword true after its first character. -/
def tailOfTrue : List Char := ['r', 'u', 'e']

/-- Remainder of the keyword false after its first character. -/
def tailOfFalse : List Char := ['a', 'l', 's', 'e']

/-- Consume an expected literal from the head of the input, if present. -/
def dropLit (kw s : List Char) : Option (List Char) :=
  if listStartsWith kw s then some (s.drop kw.length) else none

/-- Parse the body of a JSON string literal after the opening quote,
returning the decoded string and the remaining input. -/
def parseStringBody : List Char → Option (List Char × List Char)
  | [] => none
  | '\\' :: 'u' :: h1 :: h2 :: h3 :: h4 :: rest =>
    match hexVal h1, hexVal h2, hexVal h3, hexVal h4 with
    | some v1, some v2, some v3, some v4 =>
      (parseStringBody rest).map fun r =>
        (Char.ofNat (((v1 * 16 + v2) * 16 + v3) * 16 + v4) :: r.1, r.2)
    | _, _, _, _ => none
  | '\\' :: e :: rest =>
    match decodeEsc e with
    | some d => (parseStringBody rest).map fun r => (d :: r.1, r.2)
    | none => none
  | c :: rest =>
    if c = '"' then some ([], rest)
    else if c.toNat < 32 then none
    else (parseStringBody rest).map fun r => (c :: r.1, r.2)

mutual

/-- Parse one JSON value (after skipping leading whitespace). -/
def parseValue : Nat → List Char → Option (Json × List Char)
  | 0, _ => none
  | n + 1, s =>
    match skipWs s with
    | 'n' :: rest => (dropLit tailOfNull rest).map fun r => (.null, r)
    | 't' :: rest => (dropLit tailOfTrue rest).map fun r => (.bool true, r)
    | 'f' :: rest => (dropLit tailOfFalse rest).map fun r => (.bool false, r)
    | '"' :: rest =>
      (parseStringBody rest).map fun r => (.str (String.mk r.1), r.2)
    | '-' :: rest =>
      match spanDigits rest with
      | ([], _) => none
      | (ds, rest') => some (.num (-(digitsToNat ds 0 : Int)), rest')
    | '[' :: rest =>
      match skipWs rest with
      | ']' :: rest' => some (.arr [], rest')
      | s' => (parseItems n s').map fun r => (.arr r.1, r.2)
    | c :: rest =>
      if c = lbrace then
        match skipWs rest with
        | [] => none
        | d :: rest' =>
          if d = rbrace then some (.obj [], rest')
          else (parseMembers n (d :: rest')).map fun r => (.obj r.1, r.2)
      else if isDigitChar c then
        match spanDigits (c :: rest) with
        | (ds, rest') => some (.num (digitsToNat ds 0 : Int), rest')
      else none
    | [] => none

/-- Parse one or more comma-separated array items up to the closing bracket. -/
def parseItems : Nat → List Char → Option (List Json × List Char)
  | 0, _ => none
  | n + 1, s =>
    match parseValue n s with
    | none => none
    | some (v, rest) =>
      match skipWs rest with
      | ',' :: rest' => (parseItems n rest').map fun r => (v :: r.1, r.2)
      | ']' :: rest' => some ([v], rest')
      | _ => none

/-- Parse one or more comma-separated object members up to the closing brace. -/
def parseMembers : Nat → List Char → Option (List (String × Json) × List Char)
  | 0, _ => none
  | n + 1, s =>
    match skipWs s with
    | '"' :: rest =>
      match parseStringBody rest with
      | none => none
      | some (key, rest') =>
        match skipWs rest' with
        | ':' :: rest'' =>
          match parseValue n rest'' with
          | none => none
          | some (v, rest3) =>
            match skipWs rest3 with
            | [] => none
            | d :: rest4 =>
              if d = ',' then
                (parseMembers n rest4).map fun r =>
                  ((String.mk key, v) :: r.1, r.2)
              else if d = rbrace then some ([(String.mk key, v)], rest4)
              else none
        | _ => none
    | _ => none

end

/-- Models `JSON.parse`: parse one value, allow trailing whitespace only. -/
def jsonParse (s : String) : Option Json :=
  match parseValue (s.length + 1) s.toList with
  | some (v, rest) => if (skipWs rest).isEmpty then some v else none
  | none => none

/-! ### JS member access and truthiness on parsed JSON values -/

/-- Models the JS member access `data.f` on a `JSON.parse` result that is not
null: `none` stands for the JS value undefined.  Objects produced by
`JSON.parse` keep the last of duplicate keys, so lookup takes the last
binding. -/
def getField (j : Json) (f : String) : Option Json :=
  match j with
  | .obj fields => fields.foldl (fun acc kv => if kv.1 = f then some kv.2 else acc) none
  | _ => none

/-- JS truthiness of a possibly-undefined JSON value, as tested by
`!data.term` on line 146 of actions.ts. -/
def truthy : Option Json → Bool
  | none => false
  | some .null => false
  | some (.bool b) => b
  | some (.num n) => !(n == 0)
  | some (.str s) => !(s == "")
  | some (.arr _) => true
  | some (.obj _) => true

/-- Models `Array.isArray` applied to a possibly-undefined JSON value. -/
def isArray : Option Json → Bool
  | some (.arr _) => true
  | _ => false

/-- Boolean test that a possibly-undefined JSON value is a JSON string. -/
def isStringVal : Option Json → Bool
  | some (.str _) => true
  | _ => false

/-! ### The resilient generation orchestrator (searchDictionary, actions.ts)

The orchestrator iterates the fixed list of candidate models; for each it
makes up to two attempts, racing the generateContent call against a 25 s
timer, cleaning up markdown fences, parsing the text as JSON, and validating
the parsed shape.  Backend behavior is a parameter: for backend index `b`
(position in `candidateModels`) and attempt index `a`, it tells whether the
call rejects with an error message, loses the timeout race, or yields text. -/

/-- The fixed, preference-ordered candidate model list (lines 50 to 54). -/
def candidateModels : List String :=
  ["gemini-2.5-flash-lite", "gemini-2.5-flash", "gemini-2.0-flash"]

/-- What one generateContent call does, for one backend and attempt index. -/
inductive GenResult where
  | fail : String → GenResult
  | timeout : GenResult
  | ok : String → GenResult

/-- A backend behavior assigns a `GenResult` to each backend index and
attempt index. -/
def Behavior : Type := Nat → Nat → GenResult

/-- The typed result of the orchestrator (lines 35 to 37 of actions.ts). -/
inductive SearchResponse where
  | success : Json → SearchResponse
  | failure : String → SearchResponse

/-- Observable steps of one orchestrator run: a backend call (backend index,
attempt index) or a fixed pause in milliseconds. -/
inductive Event where
  | call : Nat → Nat → Event
  | sleep : Nat → Event
deriving DecidableEq

/-- The message of the timeout rejection built on line 129 of actions.ts. -/
def timeoutMessage : String := "Request timed out"

/-- Models the V8 SyntaxError message thrown by `JSON.parse` on malformed
input.  The exact engine text varies; what the orchestrator inspects is only
whether the message contains the substrings 503 or timed out, which the
engine parse-error messages do not. -/
def jsonSyntaxErrorMessage : String := "Unexpected token in JSON"

/-- Models the TypeError message thrown by the member access `data.term` when
`JSON.parse` returned null (line 146 of actions.ts). -/
def nullAccessMessage : String := "Cannot read properties of null"

/-- The validation error thrown on line 147 of actions.ts. -/
def invalidStructureMessage : String := "Invalid response structure from model"

/-- Line 162 of actions.ts: an error is transient when its message contains
503 or timed out. -/
def transientMsg (msg : String) : Bool :=
  strContains msg "503" || strContains msg "timed out"

/-- Lines 154 to 159 of actions.ts: both assignments to `checkError` are
guarded by `!checkError`, so the captured error is the first one recorded. -/
def captureError (checkError : Option String) (msg : String) : Option String :=
  if checkError.isNone && strContains msg "503" then some msg
  else if checkError.isNone then some msg
  else checkError

/-- The shape validation of lines 146 to 148 of actions.ts applied to a
parsed value: a null value makes the member access throw; a falsy `term` or a
non-array `meaning` throws the invalid-structure error; otherwise the value
passes unchanged. -/
def validateParsed (d : Json) : Except String Json :=
  match d with
  | .null => .error nullAccessMessage
  | _ =>
    if !(truthy (getField d "term")) || !(isArray (getField d "meaning"))
    then .error invalidStructureMessage
    else .ok d

/-- One attempt body (lines 124 to 150 of actions.ts): the raced call, fence
cleanup, JSON parsing, and shape validation, as an error-or-value result. -/
def attemptResult (bh : Behavior) (b a : Nat) : Except String Json :=
  match bh b a with
  | .fail msg => .error msg
  | .timeout => .error timeoutMessage
  | .ok text =>
    match jsonParse (stripFences text) with
    | none => .error jsonSyntaxErrorMessage
    | some d => validateParsed d

/-- The inner retry loop (lines 123 to 168): at most `fuel` further attempts
starting at index `a`, threading the captured first error and emitting the
trace of calls and pauses.  On a validated success it stops with the data; a
non-transient failure breaks to the next model; a transient failure at
attempt 0 pauses 1000 ms and retries. -/
def runAttempts (bh : Behavior) (b : Nat) :
    Nat → Nat → Option String → Option Json × Option String × List Event
  | 0, _, ce => (none, ce, [])
  | n + 1, a, ce =>
    match attemptResult bh b a with
    | .ok d => (some d, ce, [Event.call b a])
    | .error msg =>
      let ce' := captureError ce msg
      if transientMsg msg then
        let rest := runAttempts bh b n (a + 1) ce'
        if a == 0 then
          (rest.1, rest.2.1, Event.call b a :: Event.sleep 1000 :: rest.2.2)
        else
          (rest.1, rest.2.1, Event.call b a :: rest.2.2)
      else
        (none, ce', [Event.call b a])

/-- The outer model loop (line 121): try each backend in order with two
attempts, stopping at the first validated success. -/
def runModels (bh : Behavior) : List Nat → Option String →
    Option Json × Option String × List Event
  | [], ce => (none, ce, [])
  | b :: rest, ce =>
    match runAttempts bh b 2 0 ce with
    | (some d, ce', tr) => (some d, ce', tr)
    | (none, ce', tr) =>
      let r := runModels bh rest ce'
      (r.1, r.2.1, tr ++ r.2.2)

/-- Line 174: the failure message falls back to Unknown error when no error
was captured or its message is empty. -/
def finalErrorText : Option String → String
  | none => "Unknown error"
  | some m => if m = "" then "Unknown error" else m

/-- The orchestrator `searchDictionary` of actions.ts, returning its typed
response together with the trace of backend calls and pauses it performed.
A missing API key returns the configuration failure before any backend work
(lines 40 to 45); otherwise the model loop runs over the three candidate
backends and either the first validated success or the aggregate failure is
returned (lines 119 to 175). -/
def searchDictionary (apiKey : Option String) (bh : Behavior) :
    SearchResponse × List Event :=
  match apiKey with
  | none => (.failure "Server configuration error: GEMINI_API_KEY is missing.", [])
  | some _ =>
    let r := runModels bh (List.range candidateModels.length) none
    match r.1 with
    | some d => (.success d, r.2.2)
    | none =>
      (.failure ("Failed to retrieve dictionary data. Last error: " ++
        finalErrorText r.2.1), r.2.2)

/-- Count of the calls to backend `b` in a trace. -/
def countCallsTo (b : Nat) (tr : List Event) : Nat :=
  tr.countP fun e => match e with
    | Event.call b' _ => b' == b
    | _ => false

/-! ### The client-side query normalizer and search driver (executeSearch)

Lines 36 to 72 of the page component.  The synchronous part of
`executeSearch` trims the input, silently returns on an empty result, sets a
fixed error and makes no call when a character outside printable ASCII
remains, and otherwise clears the state and starts the server call. -/

/-- The JS regex character class of the non-English gate: a character outside
the inclusive printable ASCII range 0x20 to 0x7E. -/
def outsidePrintableAscii (c : Char) : Bool :=
  decide (c.toNat < 0x20) || decide (0x7E < c.toNat)

/-- What the synchronous part of `executeSearch` does with a raw input. -/
inductive SearchAction where
  | noop : SearchAction
  | rejectNonEnglish : SearchAction
  | startSearch : String → SearchAction
deriving DecidableEq

/-- The synchronous part of `executeSearch` (lines 36 to 55): trim, silently
drop empty input, reject non-ASCII input with a fixed message, else start the
server call on the cleaned term. -/
def executeSearch (term : String) : SearchAction :=
  let cleanTerm := jsTrim term
  if cleanTerm = "" then .noop
  else if cleanTerm.toList.any outsidePrintableAscii then .rejectNonEnglish
  else .startSearch cleanTerm

/-- The error message surfaced to the user by each action: only the
non-English rejection calls setError with a message. -/
def surfacedError : SearchAction → Option String
  | .rejectNonEnglish => some "Please enter English text only."
  | _ => none

/-- The server request issued by each action: only startSearch reaches
`searchDictionary`, with the cleaned term. -/
def networkRequest : SearchAction → Option String
  | .startSearch q => some q
  | _ => none

/-! ### Overlapping lookups and the displayed result

The transition callback of `executeSearch` (lines 55 to 71) writes the
arriving response into the result state unconditionally: there is no
generation counter or cancellation handle.  The model below replays any
interleaving of invocations: starting invocation `i` performs the synchronous
setResult(null) of a new search, and the settling of invocation `i`'s
successful response performs its setResult(response.data).  The displayed
result is tagged with the invocation that produced it. -/

/-- The result state of the page: which invocation's data is displayed. -/
structure UIState where
  result : Option Nat
deriving DecidableEq

/-- An observable step of the page: a lookup invocation starts, or the
response of invocation `i` settles successfully. -/
inductive UIEvent where
  | start : Nat → UIEvent
  | settleOk : Nat → UIEvent
deriving DecidableEq

/-- The state update of one step, read off the code: a new search clears the
result (line 53), and a settling response overwrites it with its own data,
with no check of which invocation is the most recent (lines 57 to 59). -/
def applyUIEvent (_st : UIState) : UIEvent → UIState
  | .start _ => UIState.mk none
  | .settleOk i => UIState.mk (some i)

/-- Replay a schedule of overlapping invocations from the initial state. -/
def runUI (evs : List UIEvent) : UIState :=
  evs.foldl applyUIEvent (UIState.mk none)

/-- The most recently initiated invocation of a schedule. -/
def lastStarted (evs : List UIEvent) : Option Nat :=
  evs.foldl (fun acc e => match e with | .start i => some i | _ => acc) none

/-! ### Concrete runs used as counterexamples and witnesses -/

/-- A run where backend 0 answers with prose (a non-transient parse failure)
and every later backend fails with a 503 service-unavailable error. -/
def bhFirstErr : Behavior := fun b _ =>
  if b = 0 then .ok "not json"
  else .fail "[503 Service Unavailable] model overloaded"

/-- A run where backend 0 fails transiently twice and backend 1 then answers
with a valid payload. -/
def bhFallback : Behavior := fun b _ =>
  if b = 0 then .fail "503 capacity exceeded"
  else .ok "\x7b\"term\":\"receipt\",\"correctedFrom\":\"reciept\",\"meaning\":[]\x7d"

/-- The payload parsed from the `bhFallback` response. -/
def fallbackEntry : Json :=
  Json.obj [("term", Json.str "receipt"), ("correctedFrom", Json.str "reciept"),
    ("meaning", Json.arr [])]

/-- A run where backend 0 always exceeds the timeout, backend 1 fails with a
non-transient error, and backend 2 fails with 503 errors. -/
def bhMixed : Behavior := fun b _ =>
  if b = 0 then .timeout
  else if b = 1 then .fail "400 bad request"
  else .fail "503 overloaded"

/-- A run whose response carries a number in the `term` field. -/
def bhNumTerm : Behavior := fun _ _ =>
  .ok "\x7b\"term\":5,\"meaning\":[]\x7d"

/-- The payload parsed from the `bhNumTerm` response. -/
def numTermEntry : Json :=
  Json.obj [("term", Json.num 5), ("meaning", Json.arr [])]

/-- A run whose response is a minimal valid payload. -/
def bhValidEntry : Behavior := fun _ _ =>
  .ok "\x7b\"term\":\"cat\",\"meaning\":[]\x7d"

/-- The payload parsed from the `bhValidEntry` response. -/
def validEntry : Json :=
  Json.obj [("term", Json.str "cat"), ("meaning", Json.arr [])]

/-- A run whose response has a `type` outside the closed word/idiom set and
no `examples` field at all. -/
def bhLooseEntry : Behavior := fun _ _ =>
  .ok "\x7b\"type\":\"noun\",\"term\":\"run\",\"meaning\":[]\x7d"

/-- The payload parsed from the `bhLooseEntry` response. -/
def looseEntry : Json :=
  Json.obj [("type", Json.str "noun"), ("term", Json.str "run"),
    ("meaning", Json.arr [])]

/-- Two overlapping lookups: invocation 1 starts, invocation 2 starts, the
response of 2 settles, then the late response of 1 settles. -/
def staleSchedule : List UIEvent :=
  [.start 1, .start 2, .settleOk 2, .settleOk 1]

/-! ## Theorems

First, lemmas about the modelled string primitives, used for the fence
round-trip property. -/

theorem listStartsWith_length_le {α : Type} [DecidableEq α] :
    ∀ {pat s : List α}, listStartsWith pat s = true → pat.length ≤ s.length
  | [], _, _ => Nat.zero_le _
  | _ :: _, [], h => by simp [listStartsWith] at h
  | p :: ps, c :: cs, h => by
    simp only [listStartsWith, Bool.and_eq_true, decide_eq_true_eq] at h
    simpa [List.length_cons, Nat.succ_le_succ_iff] using
      @listStartsWith_length_le α _ ps cs h.2

theorem listStartsWith_append_right {α : Type} [DecidableEq α] :
    ∀ {pat s : List α} (t : List α), listStartsWith pat s = true →
      listStartsWith pat (s ++ t) = true
  | [], _, _, _ => rfl
  | _ :: _, [], _, h => by simp [listStartsWith] at h
  | p :: ps, c :: cs, t, h => by
    simp only [listStartsWith, Bool.and_eq_true, decide_eq_true_eq] at h
    simp only [List.cons_append, listStartsWith, Bool.and_eq_true,
      decide_eq_true_eq]
    exact ⟨h.1, listStartsWith_append_right t h.2⟩

theorem listStartsWith_refl_append {α : Type} [DecidableEq α] :
    ∀ (l t : List α), listStartsWith l (l ++ t) = true
  | [], _ => rfl
  | p :: ps, t => by
    simp [List.cons_append, listStartsWith, listStartsWith_refl_append ps t]

theorem listStartsWith_sep_split {α : Type} [DecidableEq α] {sep : α} :
    ∀ {pat xs : List α} {ys : List α}, sep ∉ pat →
      listStartsWith pat (xs ++ sep :: ys) = true →
      listStartsWith pat xs = true
  | [], _, _, _, _ => rfl
  | p :: ps, [], ys, hsep, h => by
    simp only [List.nil_append, listStartsWith, Bool.and_eq_true,
      decide_eq_true_eq] at h
    exact absurd (h.1 ▸ List.mem_cons_self p ps) hsep
  | p :: ps, c :: xs', ys, hsep, h => by
    simp only [List.cons_append, listStartsWith, Bool.and_eq_true,
      decide_eq_true_eq] at h
    simp only [listStartsWith, Bool.and_eq_true, decide_eq_true_eq]
    exact ⟨h.1, listStartsWith_sep_split
      (fun hm => hsep (List.mem_cons_of_mem p hm)) h.2⟩

theorem removeAllF_nil (p : Char) (ps : List Char) :
    ∀ (n : Nat), removeAllF p ps n [] = []
  | 0 => rfl
  | _ + 1 => rfl

theorem removeAllF_congr (p : Char) (ps : List Char) :
    ∀ (n : Nat), ∀ {m : Nat} {s : List Char}, s.length ≤ n → s.length ≤ m →
      removeAllF p ps n s = removeAllF p ps m s := by
  intro n
  induction n with
  | zero =>
    intro m s hn _
    have hs : s = [] := List.eq_nil_of_length_eq_zero (Nat.le_zero.mp hn)
    subst hs
    rw [removeAllF_nil, removeAllF_nil]
  | succ n ih =>
    intro m s hn hm
    match s, m with
    | [], _ => rw [removeAllF_nil, removeAllF_nil]
    | c :: cs, 0 => exact absurd hm (by simp)
    | c :: cs, m' + 1 =>
      simp only [removeAllF]
      by_cases hsw : listStartsWith (p :: ps) (c :: cs) = true
      · simp only [hsw, if_true]
        have hd : (cs.drop ps.length).length ≤ cs.length := by
          simp [List.length_drop]
        exact ih (Nat.le_trans hd (Nat.le_of_succ_le_succ hn))
          (Nat.le_trans hd (Nat.le_of_succ_le_succ hm))
      · simp only [Bool.not_eq_true] at hsw
        simp only [hsw, if_false, Bool.false_eq_true]
        exact congrArg (c :: ·)
          (ih (Nat.le_of_succ_le_succ hn) (Nat.le_of_succ_le_succ hm))

theorem removeAll_cons_pos {p : Char} {ps : List Char} {c : Char}
    {cs : List Char} (h : listStartsWith (p :: ps) (c :: cs) = true) :
    removeAll p ps (c :: cs) = removeAll p ps (cs.drop ps.length) := by
  have hd : (cs.drop ps.length).length ≤ cs.length := by
    simp [List.length_drop]
  simp only [removeAll, List.length_cons, removeAllF, h, if_true]
  exact removeAllF_congr p ps cs.length hd (Nat.le_refl _)

theorem removeAll_cons_neg {p : Char} {ps : List Char} {c : Char}
    {cs : List Char} (h : listStartsWith (p :: ps) (c :: cs) = false) :
    removeAll p ps (c :: cs) = c :: removeAll p ps cs := by
  simp only [removeAll, List.length_cons, removeAllF, h, Bool.false_eq_true,
    if_false]

theorem removeAll_pattern_head (p : Char) (ps rest : List Char) :
    removeAll p ps ((p :: ps) ++ rest) = removeAll p ps rest := by
  have h : listStartsWith (p :: ps) (p :: (ps ++ rest)) = true :=
    listStartsWith_refl_append (p :: ps) rest
  calc removeAll p ps ((p :: ps) ++ rest)
      = removeAll p ps ((ps ++ rest).drop ps.length) := removeAll_cons_pos h
    _ = removeAll p ps rest := by rw [List.drop_left]

theorem removeAll_sep_split {p : Char} {ps : List Char} {sep : Char}
    (hsep : sep ∉ p :: ps) :
    ∀ (n : Nat) (xs : List Char), xs.length ≤ n → ∀ (ys : List Char),
      removeAll p ps (xs ++ sep :: ys) =
        removeAll p ps xs ++ sep :: removeAll p ps ys := by
  have hbase : ∀ ys, removeAll p ps (sep :: ys) = sep :: removeAll p ps ys := by
    intro ys
    have hsw : listStartsWith (p :: ps) (sep :: ys) = false := by
      cases hps : listStartsWith (p :: ps) (sep :: ys) with
      | false => rfl
      | true =>
        simp only [listStartsWith, Bool.and_eq_true, decide_eq_true_eq] at hps
        exact absurd (hps.1 ▸ List.mem_cons_self p ps) hsep
    exact removeAll_cons_neg hsw
  intro n
  induction n with
  | zero =>
    intro xs hxs ys
    have hx : xs = [] := List.eq_nil_of_length_eq_zero (Nat.le_zero.mp hxs)
    subst hx
    simpa using hbase ys
  | succ n ih =>
    intro xs hxs ys
    match xs with
    | [] => simpa using hbase ys
    | c :: xs' =>
      by_cases hsw : listStartsWith (p :: ps) (c :: (xs' ++ sep :: ys)) = true
      · have hxsw : listStartsWith (p :: ps) (c :: xs') = true := by
          exact listStartsWith_sep_split hsep
            (show listStartsWith (p :: ps) ((c :: xs') ++ sep :: ys) = true by
              simpa using hsw)
        have hlen : ps.length ≤ xs'.length := by
          have := listStartsWith_length_le hxsw
          simpa [Nat.succ_le_succ_iff] using this
        have hdl : (xs'.drop ps.length).length ≤ n := by
          have h1 : (xs'.drop ps.length).length ≤ xs'.length := by
            simp [List.length_drop]
          exact Nat.le_trans h1 (Nat.le_of_succ_le_succ hxs)
        calc removeAll p ps ((c :: xs') ++ sep :: ys)
            = removeAll p ps ((xs' ++ sep :: ys).drop ps.length) :=
              removeAll_cons_pos (by simpa using hsw)
          _ = removeAll p ps (xs'.drop ps.length ++ sep :: ys) := by
              rw [List.drop_append_of_le_length hlen]
          _ = removeAll p ps (xs'.drop ps.length) ++ sep :: removeAll p ps ys :=
              ih _ hdl ys
          _ = removeAll p ps (c :: xs') ++ sep :: removeAll p ps ys := by
              rw [removeAll_cons_pos hxsw]
      · have hxsw : listStartsWith (p :: ps) (c :: xs') = false := by
          cases hps : listStartsWith (p :: ps) (c :: xs') with
          | false => rfl
          | true =>
            have := listStartsWith_append_right (sep :: ys) hps
            exact absurd (by simpa using this) hsw
        have hsw' : listStartsWith (p :: ps) (c :: (xs' ++ sep :: ys)) = false :=
          Bool.not_eq_true _ ▸ (by simpa using hsw)
        calc removeAll p ps ((c :: xs') ++ sep :: ys)
            = c :: removeAll p ps (xs' ++ sep :: ys) := by
              have := removeAll_cons_neg hsw'
              simpa using this
          _ = c :: (removeAll p ps xs' ++ sep :: removeAll p ps ys) := by
              rw [ih xs' (Nat.le_of_succ_le_succ hxs) ys]
          _ = removeAll p ps (c :: xs') ++ sep :: removeAll p ps ys := by
              rw [removeAll_cons_neg hxsw]
              simp

theorem removeAll_sep {p : Char} {ps : List Char} {sep : Char}
    (hsep : sep ∉ p :: ps) (xs ys : List Char) :
    removeAll p ps (xs ++ sep :: ys) =
      removeAll p ps xs ++ sep :: removeAll p ps ys :=
  removeAll_sep_split hsep xs.length xs (Nat.le_refl _) ys

theorem dropWhile_append_single {α : Type} (q : α → Bool) :
    ∀ (s : List α) (c : α), List.dropWhile q (s ++ [c]) =
      if (List.dropWhile q s).isEmpty then List.dropWhile q [c]
      else List.dropWhile q s ++ [c]
  | [], c => by simp
  | c' :: s', c => by
    by_cases h : q c' = true
    · simpa [List.dropWhile_cons, h] using dropWhile_append_single q s' c
    · simp only [Bool.not_eq_true] at h
      simp [List.dropWhile_cons, h]

theorem jsTrimList_cons_ws {c : Char} (s : List Char)
    (h : jsWhitespace c = true) : jsTrimList (c :: s) = jsTrimList s := by
  simp [jsTrimList, List.dropWhile_cons, h]

theorem jsTrimList_append_ws {c : Char} (s : List Char)
    (h : jsWhitespace c = true) : jsTrimList (s ++ [c]) = jsTrimList s := by
  simp only [jsTrimList, dropWhile_append_single jsWhitespace s c]
  by_cases he : (List.dropWhile jsWhitespace s).isEmpty = true
  · have hse : List.dropWhile jsWhitespace s = [] := by
      simpa [List.isEmpty_iff] using he
    simp [he, hse, List.dropWhile_cons, h]
  · simp only [he, if_false, Bool.false_eq_true]
    rw [List.reverse_append]
    simp [List.dropWhile_cons, h]

theorem string_toList_append (a b : String) :
    (a ++ b).toList = a.toList ++ b.toList := rfl

theorem removeAll_sep_cons {p : Char} {ps : List Char} {sep : Char}
    (hsep : sep ∉ p :: ps) (ys : List Char) :
    removeAll p ps (sep :: ys) = sep :: removeAll p ps ys := by
  have hsw : listStartsWith (p :: ps) (sep :: ys) = false := by
    cases hps : listStartsWith (p :: ps) (sep :: ys) with
    | false => rfl
    | true =>
      simp only [listStartsWith, Bool.and_eq_true, decide_eq_true_eq] at hps
      exact absurd (hps.1 ▸ List.mem_cons_self p ps) hsep
  exact removeAll_cons_neg hsw

/-- The cleanup stage of one attempt applied to a fenced payload equals the
cleanup of the bare payload: the wrapping fence tokens are removed entirely
and the surrounding line breaks are trimmed, while interior occurrences are
rewritten identically on both sides. -/
theorem stripFences_wrap (t : String) :
    stripFences ("```json\n" ++ t ++ "\n```") = stripFences t := by
  have hsep1 : ('\n' : Char) ∉ backtick :: fenceJsonPat := by decide
  have hsep2 : ('\n' : Char) ∉ backtick :: fencePat := by decide
  have hws : jsWhitespace '\n' = true := by decide
  have htl : ("```json\n" ++ t ++ "\n```").toList =
      (backtick :: fenceJsonPat) ++
        ('\n' :: (t.toList ++ '\n' :: (backtick :: fencePat))) := by
    rw [string_toList_append, string_toList_append]
    have h1 : "```json\n".toList = (backtick :: fenceJsonPat) ++ ['\n'] := by
      decide
    have h2 : "\n```".toList = '\n' :: (backtick :: fencePat) := by decide
    rw [h1, h2]
    simp [List.append_assoc]
  have hR1 : removeAll backtick fenceJsonPat (backtick :: fencePat) =
      backtick :: fencePat := by decide
  have hR2 : removeAll backtick fencePat (backtick :: fencePat) = [] := by
    decide
  unfold stripFences
  rw [htl, removeAll_pattern_head, removeAll_sep_cons hsep1,
    removeAll_sep hsep1, hR1, removeAll_sep_cons hsep2, removeAll_sep hsep2,
    hR2, jsTrimList_cons_ws _ hws, jsTrimList_append_ws _ hws]

/-! Lemmas about the inner retry loop of the orchestrator. -/

theorem runAttempts_ok {bh : Behavior} {b : Nat} (n : Nat) {a : Nat}
    {d : Json} {ce : Option String} (h : attemptResult bh b a = .ok d) :
    runAttempts bh b (n + 1) a ce = (some d, ce, [Event.call b a]) := by
  simp [runAttempts, h]

theorem runAttempts_err_stop {bh : Behavior} {b : Nat} (n : Nat) {a : Nat}
    {msg : String} {ce : Option String} (h : attemptResult bh b a = .error msg)
    (ht : transientMsg msg = false) :
    runAttempts bh b (n + 1) a ce =
      (none, captureError ce msg, [Event.call b a]) := by
  simp [runAttempts, h, ht]

theorem runAttempts_err_retry {bh : Behavior} {b : Nat} (n : Nat)
    {msg : String} {ce : Option String} (h : attemptResult bh b 0 = .error msg)
    (ht : transientMsg msg = true) :
    runAttempts bh b (n + 1) 0 ce =
      ((runAttempts bh b n 1 (captureError ce msg)).1,
       (runAttempts bh b n 1 (captureError ce msg)).2.1,
       Event.call b 0 :: Event.sleep 1000 ::
         (runAttempts bh b n 1 (captureError ce msg)).2.2) := by
  simp [runAttempts, h, ht]

theorem runAttempts_one_one {bh : Behavior} {b : Nat} {msg : String}
    {ce : Option String} (h : attemptResult bh b 1 = .error msg) :
    runAttempts bh b 1 1 ce = (none, captureError ce msg, [Event.call b 1]) := by
  cases ht : transientMsg msg with
  | false => exact runAttempts_err_stop 0 h ht
  | true => simp [runAttempts, h, ht]

/-- Exhaustive description of one backend of the loop: success at the first
attempt, a non-transient stop, a transient failure followed by a successful
retry, or a transient failure followed by a failing retry. -/
theorem runAttempts_two_cases (bh : Behavior) (b : Nat) (ce : Option String) :
    (∃ d, attemptResult bh b 0 = .ok d ∧
      runAttempts bh b 2 0 ce = (some d, ce, [Event.call b 0])) ∨
    (∃ msg, attemptResult bh b 0 = .error msg ∧ transientMsg msg = false ∧
      runAttempts bh b 2 0 ce = (none, captureError ce msg, [Event.call b 0])) ∨
    (∃ msg d, attemptResult bh b 0 = .error msg ∧ transientMsg msg = true ∧
      attemptResult bh b 1 = .ok d ∧
      runAttempts bh b 2 0 ce = (some d, captureError ce msg,
        [Event.call b 0, Event.sleep 1000, Event.call b 1])) ∨
    (∃ msg msg', attemptResult bh b 0 = .error msg ∧ transientMsg msg = true ∧
      attemptResult bh b 1 = .error msg' ∧
      runAttempts bh b 2 0 ce = (none, captureError (captureError ce msg) msg',
        [Event.call b 0, Event.sleep 1000, Event.call b 1])) := by
  cases h0 : attemptResult bh b 0 with
  | ok d => exact Or.inl ⟨d, rfl, runAttempts_ok 1 h0⟩
  | error msg =>
    cases ht : transientMsg msg with
    | false => exact Or.inr (Or.inl ⟨msg, rfl, ht, runAttempts_err_stop 1 h0 ht⟩)
    | true =>
      have hstep : runAttempts bh b 2 0 ce =
          ((runAttempts bh b 1 1 (captureError ce msg)).1,
           (runAttempts bh b 1 1 (captureError ce msg)).2.1,
           Event.call b 0 :: Event.sleep 1000 ::
             (runAttempts bh b 1 1 (captureError ce msg)).2.2) :=
        runAttempts_err_retry 1 h0 ht
      cases h1 : attemptResult bh b 1 with
      | ok d =>
        refine Or.inr (Or.inr (Or.inl ⟨msg, d, rfl, ht, rfl, ?_⟩))
        rw [hstep, runAttempts_ok 0 h1]
      | error msg' =>
        refine Or.inr (Or.inr (Or.inr ⟨msg, msg', rfl, ht, rfl, ?_⟩))
        rw [hstep, runAttempts_one_one h1]

/-! Segment-occurrence lemmas for traces. -/

theorem hasSubList_nil_pat {α : Type} [DecidableEq α] :
    ∀ (s : List α), hasSubList [] s = true
  | [] => rfl
  | _ :: _ => by simp [hasSubList, listStartsWith]

theorem hasSubList_append_left {α : Type} [DecidableEq α] {pat : List α} :
    ∀ {t : List α} (suf : List α), hasSubList pat t = true →
      hasSubList pat (t ++ suf) = true := by
  intro t
  induction t with
  | nil =>
    intro suf h
    match pat, h with
    | [], _ => exact hasSubList_nil_pat suf
  | cons c t' ih =>
    intro suf h
    rw [List.cons_append]
    cases pat with
    | nil => exact hasSubList_nil_pat _
    | cons p ps =>
      simp only [hasSubList, Bool.or_eq_true] at h ⊢
      rcases h with h | h
      · exact Or.inl (by simpa using listStartsWith_append_right suf h)
      · exact Or.inr (ih suf h)

theorem hasSubList_append_right {α : Type} [DecidableEq α] {pat : List α}
    (pre : List α) {t : List α} (h : hasSubList pat t = true) :
    hasSubList pat (pre ++ t) = true := by
  induction pre with
  | nil => simpa using h
  | cons c pre' ih =>
    rw [List.cons_append]
    cases pat with
    | nil => exact hasSubList_nil_pat _
    | cons p ps =>
      simp only [hasSubList, Bool.or_eq_true]
      exact Or.inr ih

theorem hasSubList_self_append {α : Type} [DecidableEq α] (l suf : List α) :
    hasSubList l (l ++ suf) = true := by
  cases l with
  | nil => exact hasSubList_nil_pat _
  | cons c l' =>
    simp only [List.cons_append, hasSubList, Bool.or_eq_true]
    exact Or.inl (listStartsWith_refl_append (c :: l') suf)

theorem hasSubList_self {α : Type} [DecidableEq α] (l : List α) :
    hasSubList l l = true := by
  have := hasSubList_self_append l []
  simpa using this

/-! Lemmas about the outer model loop. -/

theorem runModels_trace_mem (bh : Behavior) :
    ∀ (bs : List Nat) (ce : Option String) (e : Event),
      e ∈ (runModels bh bs ce).2.2 →
      (∃ b a, e = Event.call b a ∧ b ∈ bs) ∨ e = Event.sleep 1000 := by
  intro bs
  induction bs with
  | nil => intro ce e he; simp [runModels] at he
  | cons b rest ih =>
    intro ce e he
    rcases runAttempts_two_cases bh b ce with ⟨d0, h0, hr⟩ | ⟨msg, h0, ht, hr⟩ |
      ⟨msg, d0, h0, ht, h1, hr⟩ | ⟨msg, msg', h0, ht, h1, hr⟩
    · simp only [runModels, hr] at he
      simp only [List.mem_singleton] at he
      exact Or.inl ⟨b, 0, he, List.mem_cons_self b rest⟩
    · simp only [runModels, hr] at he
      rcases List.mem_cons.mp he with he | he
      · exact Or.inl ⟨b, 0, he, List.mem_cons_self b rest⟩
      · rcases ih _ e he with ⟨b', a', hea, hb'⟩ | hs
        · exact Or.inl ⟨b', a', hea, List.mem_cons_of_mem b hb'⟩
        · exact Or.inr hs
    · simp only [runModels, hr] at he
      rcases List.mem_cons.mp he with he | he
      · exact Or.inl ⟨b, 0, he, List.mem_cons_self b rest⟩
      rcases List.mem_cons.mp he with he | he
      · exact Or.inr he
      · simp only [List.mem_singleton] at he
        exact Or.inl ⟨b, 1, he, List.mem_cons_self b rest⟩
    · simp only [runModels, hr] at he
      rcases List.mem_cons.mp he with he | he
      · exact Or.inl ⟨b, 0, he, List.mem_cons_self b rest⟩
      rcases List.mem_cons.mp he with he | he
      · exact Or.inr he
      rcases List.mem_cons.mp he with he | he
      · exact Or.inl ⟨b, 1, he, List.mem_cons_self b rest⟩
      · rcases ih _ e he with ⟨b', a', hea, hb'⟩ | hs
        · exact Or.inl ⟨b', a', hea, List.mem_cons_of_mem b hb'⟩
        · exact Or.inr hs

theorem runModels_success (bh : Behavior) :
    ∀ (bs : List Nat) (ce : Option String) (d : Json),
      (runModels bh bs ce).1 = some d →
      ∃ b a, (runModels bh bs ce).2.2.getLast? = some (Event.call b a) ∧
        attemptResult bh b a = .ok d := by
  intro bs
  induction bs with
  | nil => intro ce d h; simp [runModels] at h
  | cons b rest ih =>
    intro ce d h
    rcases runAttempts_two_cases bh b ce with ⟨d0, h0, hr⟩ | ⟨msg, h0, ht, hr⟩ |
      ⟨msg, d0, h0, ht, h1, hr⟩ | ⟨msg, msg', h0, ht, h1, hr⟩
    · simp only [runModels, hr] at h ⊢
      obtain rfl : d0 = d := Option.some.inj h
      exact ⟨b, 0, by simp, h0⟩
    · simp only [runModels, hr] at h ⊢
      obtain ⟨b', a', hl, hok⟩ := ih _ d h
      have hne : (runModels bh rest (captureError ce msg)).2.2 ≠ [] := by
        intro hnil
        rw [hnil] at hl
        simp at hl
      rw [List.getLast?_append_of_ne_nil _ hne]
      exact ⟨b', a', hl, hok⟩
    · simp only [runModels, hr] at h ⊢
      obtain rfl : d0 = d := Option.some.inj h
      exact ⟨b, 1, by simp, h1⟩
    · simp only [runModels, hr] at h ⊢
      obtain ⟨b', a', hl, hok⟩ := ih _ d h
      have hne : (runModels bh rest
          (captureError (captureError ce msg) msg')).2.2 ≠ [] := by
        intro hnil
        rw [hnil] at hl
        simp at hl
      rw [List.getLast?_append_of_ne_nil _ hne]
      exact ⟨b', a', hl, hok⟩

theorem runModels_call_ok (bh : Behavior) :
    ∀ (bs : List Nat) (ce : Option String) (b a : Nat) (d : Json),
      Event.call b a ∈ (runModels bh bs ce).2.2 →
      attemptResult bh b a = .ok d →
      (runModels bh bs ce).1 = some d ∧
        (runModels bh bs ce).2.2.getLast? = some (Event.call b a) := by
  intro bs
  induction bs with
  | nil => intro ce b a d hmem _; simp [runModels] at hmem
  | cons b0 rest ih =>
    intro ce b a d hmem hok
    rcases runAttempts_two_cases bh b0 ce with ⟨d0, h0, hr⟩ | ⟨msg, h0, ht, hr⟩ |
      ⟨msg, d0, h0, ht, h1, hr⟩ | ⟨msg, msg', h0, ht, h1, hr⟩
    · simp only [runModels, hr] at hmem ⊢
      simp only [List.mem_singleton, Event.call.injEq] at hmem
      obtain ⟨rfl, rfl⟩ := hmem
      rw [h0] at hok
      obtain rfl : d0 = d := Except.ok.inj hok
      exact ⟨rfl, by simp⟩
    · simp only [runModels, hr] at hmem ⊢
      rcases List.mem_cons.mp hmem with he | he
      · simp only [Event.call.injEq] at he
        obtain ⟨rfl, rfl⟩ := he
        rw [h0] at hok
        exact absurd hok (by simp)
      · obtain ⟨hres, hlast⟩ := ih _ b a d he hok
        have hne : (runModels bh rest (captureError ce msg)).2.2 ≠ [] := by
          intro hnil
          rw [hnil] at hlast
          simp at hlast
        rw [List.getLast?_append_of_ne_nil _ hne]
        exact ⟨hres, hlast⟩
    · simp only [runModels, hr] at hmem ⊢
      rcases List.mem_cons.mp hmem with he | he
      · simp only [Event.call.injEq] at he
        obtain ⟨rfl, rfl⟩ := he
        rw [h0] at hok
        exact absurd hok (by simp)
      rcases List.mem_cons.mp he with he | he
      · exact absurd he (by simp)
      · simp only [List.mem_singleton, Event.call.injEq] at he
        obtain ⟨rfl, rfl⟩ := he
        rw [h1] at hok
        obtain rfl : d0 = d := Except.ok.inj hok
        exact ⟨rfl, by simp⟩
    · simp only [runModels, hr] at hmem ⊢
      rcases List.mem_cons.mp hmem with he | he
      · simp only [Event.call.injEq] at he
        obtain ⟨rfl, rfl⟩ := he
        rw [h0] at hok
        exact absurd hok (by simp)
      rcases List.mem_cons.mp he with he | he
      · exact absurd he (by simp)
      rcases List.mem_cons.mp he with he | he
      · simp only [Event.call.injEq] at he
        obtain ⟨rfl, rfl⟩ := he
        rw [h1] at hok
        exact absurd hok (by simp)
      · obtain ⟨hres, hlast⟩ := ih _ b a d he hok
        have hne : (runModels bh rest
            (captureError (captureError ce msg) msg')).2.2 ≠ [] := by
          intro hnil
          rw [hnil] at hlast
          simp at hlast
        rw [List.getLast?_append_of_ne_nil _ hne]
        exact ⟨hres, hlast⟩

theorem countCallsTo_append (b : Nat) (t1 t2 : List Event) :
    countCallsTo b (t1 ++ t2) = countCallsTo b t1 + countCallsTo b t2 :=
  List.countP_append _ t1 t2

theorem countCallsTo_one_le (b b0 a0 : Nat) :
    countCallsTo b [Event.call b0 a0] ≤ 1 := by
  unfold countCallsTo
  cases hbb : b0 == b <;> simp [List.countP_cons, hbb]

theorem countCallsTo_seg_le (b b0 : Nat) :
    countCallsTo b [Event.call b0 0, Event.sleep 1000, Event.call b0 1] ≤ 2 := by
  unfold countCallsTo
  cases hbb : b0 == b <;> simp [List.countP_cons, hbb]

theorem countCallsTo_one_ne {b b0 : Nat} (h : b0 ≠ b) (a0 : Nat) :
    countCallsTo b [Event.call b0 a0] = 0 := by
  have hbb : (b0 == b) = false := beq_eq_false_iff_ne.mpr h
  unfold countCallsTo
  simp [List.countP_cons, hbb]

theorem countCallsTo_seg_ne {b b0 : Nat} (h : b0 ≠ b) :
    countCallsTo b [Event.call b0 0, Event.sleep 1000, Event.call b0 1] = 0 := by
  have hbb : (b0 == b) = false := beq_eq_false_iff_ne.mpr h
  unfold countCallsTo
  simp [List.countP_cons, hbb]

theorem runModels_countCalls (bh : Behavior) :
    ∀ (bs : List Nat) (ce : Option String) (b : Nat), bs.Nodup →
      countCallsTo b (runModels bh bs ce).2.2 ≤ 2 := by
  intro bs
  induction bs with
  | nil => intro ce b _; simp [runModels, countCallsTo]
  | cons b0 rest ih =>
    intro ce b hnd
    rw [List.nodup_cons] at hnd
    obtain ⟨hb0, hndr⟩ := hnd
    have hz : ∀ (ce' : Option String), b0 = b →
        countCallsTo b (runModels bh rest ce').2.2 = 0 := by
      intro ce' hbb
      subst hbb
      unfold countCallsTo
      rw [List.countP_eq_zero]
      intro e he
      rcases runModels_trace_mem bh rest ce' e he with ⟨b', a', rfl, hb'⟩ | rfl
      · simp only [beq_iff_eq]
        intro hne
        exact hb0 (hne ▸ hb')
      · simp
    rcases runAttempts_two_cases bh b0 ce with ⟨d0, h0, hr⟩ | ⟨msg, h0, ht, hr⟩ |
      ⟨msg, d0, h0, ht, h1, hr⟩ | ⟨msg, msg', h0, ht, h1, hr⟩
    · simp only [runModels, hr]
      exact Nat.le_trans (countCallsTo_one_le b b0 0) (by norm_num)
    · simp only [runModels, hr]
      rw [countCallsTo_append]
      by_cases hbb : b0 = b
      · rw [hz _ hbb]
        exact Nat.le_trans (Nat.add_le_add_right (countCallsTo_one_le b b0 0) 0)
          (by norm_num)
      · rw [countCallsTo_one_ne hbb]
        simpa using ih _ b hndr
    · simp only [runModels, hr]
      exact countCallsTo_seg_le b b0
    · simp only [runModels, hr]
      rw [countCallsTo_append]
      by_cases hbb : b0 = b
      · rw [hz _ hbb]
        exact Nat.le_trans (Nat.add_le_add_right (countCallsTo_seg_le b b0) 0)
          (by norm_num)
      · rw [countCallsTo_seg_ne hbb]
        simpa using ih _ b hndr

theorem runModels_retry (bh : Behavior) :
    ∀ (bs : List Nat) (ce : Option String) (b : Nat),
      Event.call b 1 ∈ (runModels bh bs ce).2.2 →
      ∃ msg, attemptResult bh b 0 = .error msg ∧ transientMsg msg = true ∧
        hasSubList [Event.call b 0, Event.sleep 1000, Event.call b 1]
          (runModels bh bs ce).2.2 = true := by
  intro bs
  induction bs with
  | nil => intro ce b hmem; simp [runModels] at hmem
  | cons b0 rest ih =>
    intro ce b hmem
    rcases runAttempts_two_cases bh b0 ce with ⟨d0, h0, hr⟩ | ⟨msg, h0, ht, hr⟩ |
      ⟨msg, d0, h0, ht, h1, hr⟩ | ⟨msg, msg', h0, ht, h1, hr⟩
    · simp only [runModels, hr] at hmem ⊢
      simp at hmem
    · simp only [runModels, hr] at hmem ⊢
      rcases List.mem_cons.mp hmem with he | he
      · simp at he
      · obtain ⟨m, hm, hmt, hsub⟩ := ih _ b he
        exact ⟨m, hm, hmt, hasSubList_append_right _ hsub⟩
    · simp only [runModels, hr] at hmem ⊢
      rcases List.mem_cons.mp hmem with he | he
      · simp at he
      rcases List.mem_cons.mp he with he | he
      · simp at he
      · simp only [List.mem_singleton, Event.call.injEq] at he
        obtain ⟨rfl, -⟩ := he
        exact ⟨msg, h0, ht, hasSubList_self _⟩
    · simp only [runModels, hr] at hmem ⊢
      rcases List.mem_cons.mp hmem with he | he
      · simp at he
      rcases List.mem_cons.mp he with he | he
      · simp at he
      rcases List.mem_cons.mp he with he | he
      · simp only [Event.call.injEq] at he
        obtain ⟨rfl, -⟩ := he
        exact ⟨msg, h0, ht, hasSubList_self_append _ _⟩
      · obtain ⟨m, hm, hmt, hsub⟩ := ih _ b he
        exact ⟨m, hm, hmt, hasSubList_append_right _ hsub⟩

/-! Bridging: searchDictionary in terms of the model loop. -/

theorem searchDictionary_trace (k : String) (bh : Behavior) :
    (searchDictionary (some k) bh).2 =
      (runModels bh (List.range candidateModels.length) none).2.2 := by
  unfold searchDictionary
  cases hr : (runModels bh (List.range candidateModels.length) none).1 <;>
    simp [hr]

theorem searchDictionary_success_iff (k : String) (bh : Behavior) (d : Json) :
    (searchDictionary (some k) bh).1 = .success d ↔
      (runModels bh (List.range candidateModels.length) none).1 = some d := by
  unfold searchDictionary
  cases hr : (runModels bh (List.range candidateModels.length) none).1 with
  | none => simp [hr]
  | some d' => simp [hr]

/-! Validation lemmas. -/

theorem validateParsed_ok {dd d : Json} (h : validateParsed dd = .ok d) :
    dd = d ∧ d ≠ Json.null ∧ truthy (getField d "term") = true ∧
      isArray (getField d "meaning") = true := by
  cases dd with
  | null => exact absurd h (by simp [validateParsed])
  | bool v =>
    simp only [validateParsed] at h
    split at h
    · exact absurd h (by simp)
    next hc =>
      obtain rfl := Except.ok.inj h
      have h1 : truthy (getField (Json.bool v) "term") = true := by
        cases htr : truthy (getField (Json.bool v) "term") with
        | true => rfl
        | false => exact absurd (by simp [htr]) hc
      have h2 : isArray (getField (Json.bool v) "meaning") = true := by
        cases har : isArray (getField (Json.bool v) "meaning") with
        | true => rfl
        | false => exact absurd (by simp [har]) hc
      exact ⟨rfl, by simp, h1, h2⟩
  | num v =>
    simp only [validateParsed] at h
    split at h
    · exact absurd h (by simp)
    next hc =>
      obtain rfl := Except.ok.inj h
      have h1 : truthy (getField (Json.num v) "term") = true := by
        cases htr : truthy (getField (Json.num v) "term") with
        | true => rfl
        | false => exact absurd (by simp [htr]) hc
      have h2 : isArray (getField (Json.num v) "meaning") = true := by
        cases har : isArray (getField (Json.num v) "meaning") with
        | true => rfl
        | false => exact absurd (by simp [har]) hc
      exact ⟨rfl, by simp, h1, h2⟩
  | str v =>
    simp only [validateParsed] at h
    split at h
    · exact absurd h (by simp)
    next hc =>
      obtain rfl := Except.ok.inj h
      have h1 : truthy (getField (Json.str v) "term") = true := by
        cases htr : truthy (getField (Json.str v) "term") with
        | true => rfl
        | false => exact absurd (by simp [htr]) hc
      have h2 : isArray (getField (Json.str v) "meaning") = true := by
        cases har : isArray (getField (Json.str v) "meaning") with
        | true => rfl
        | false => exact absurd (by simp [har]) hc
      exact ⟨rfl, by simp, h1, h2⟩
  | arr v =>
    simp only [validateParsed] at h
    split at h
    · exact absurd h (by simp)
    next hc =>
      obtain rfl := Except.ok.inj h
      have h1 : truthy (getField (Json.arr v) "term") = true := by
        cases htr : truthy (getField (Json.arr v) "term") with
        | true => rfl
        | false => exact absurd (by simp [htr]) hc
      have h2 : isArray (getField (Json.arr v) "meaning") = true := by
        cases har : isArray (getField (Json.arr v) "meaning") with
        | true => rfl
        | false => exact absurd (by simp [har]) hc
      exact ⟨rfl, by simp, h1, h2⟩
  | obj v =>
    simp only [validateParsed] at h
    split at h
    · exact absurd h (by simp)
    next hc =>
      obtain rfl := Except.ok.inj h
      have h1 : truthy (getField (Json.obj v) "term") = true := by
        cases htr : truthy (getField (Json.obj v) "term") with
        | true => rfl
        | false => exact absurd (by simp [htr]) hc
      have h2 : isArray (getField (Json.obj v) "meaning") = true := by
        cases har : isArray (getField (Json.obj v) "meaning") with
        | true => rfl
        | false => exact absurd (by simp [har]) hc
      exact ⟨rfl, by simp, h1, h2⟩

theorem validateParsed_not_ok {dd : Json}
    (hv : ¬(dd ≠ Json.null ∧ truthy (getField dd "term") = true ∧
      isArray (getField dd "meaning") = true)) :
    ∃ em, validateParsed dd = .error em ∧ transientMsg em = false := by
  by_cases hdn : dd = Json.null
  · subst hdn
    exact ⟨nullAccessMessage, rfl, by decide⟩
  · have hcond : (!(truthy (getField dd "term")) ||
        !(isArray (getField dd "meaning"))) = true := by
      cases htr : truthy (getField dd "term") with
      | false => simp
      | true =>
        cases har : isArray (getField dd "meaning") with
        | false => simp
        | true => exact absurd ⟨hdn, htr, har⟩ hv
    refine ⟨invalidStructureMessage, ?_, by decide⟩
    cases dd <;> first
      | exact absurd rfl hdn
      | simp [validateParsed, hcond]

theorem attemptResult_ok_valid {bh : Behavior} {b a : Nat} {d : Json}
    (h : attemptResult bh b a = .ok d) :
    d ≠ Json.null ∧ truthy (getField d "term") = true ∧
      isArray (getField d "meaning") = true := by
  unfold attemptResult at h
  cases hgen : bh b a with
  | fail msg => simp only [hgen] at h; exact absurd h (by simp)
  | timeout => simp only [hgen] at h; exact absurd h (by simp)
  | ok text =>
    simp only [hgen] at h
    cases hp : jsonParse (stripFences text) with
    | none => simp only [hp] at h; exact absurd h (by simp)
    | some dd =>
      simp only [hp] at h
      exact (validateParsed_ok h).2

/-! ## Claim theorems -/

/-- C1 (code behavior at the failing input): with backend 0 failing
non-transiently on prose and backends 1 and 2 failing with 503 errors, the
orchestrator returns the first recorded error (the parse failure), not the
503 cause: both assignments to checkError on lines 154 to 159 of actions.ts
are guarded by the same checkError-is-null test, so a 503 arriving after the
first error is never captured, although a 503 did occur and was classified
transient. -/
theorem searchDictionary_first_error_despite_503 :
    searchDictionary (some "key") bhFirstErr =
      (.failure ("Failed to retrieve dictionary data. Last error: " ++
        jsonSyntaxErrorMessage),
       [Event.call 0 0, Event.call 1 0, Event.sleep 1000, Event.call 1 1,
        Event.call 2 0, Event.sleep 1000, Event.call 2 1]) ∧
    attemptResult bhFirstErr 1 0 =
      .error "[503 Service Unavailable] model overloaded" ∧
    transientMsg "[503 Service Unavailable] model overloaded" = true ∧
    strContains ("Failed to retrieve dictionary data. Last error: " ++
      jsonSyntaxErrorMessage) "503" = false :=
  ⟨rfl, rfl, by decide, by decide⟩

/-- C2 counterexample: in the schedule where lookup 1 starts, lookup 2
starts, the response of 2 settles and then the late response of 1 settles,
the displayed result belongs to lookup 1, not to the most recently initiated
lookup 2: the transition callback stores every arriving response
unconditionally, so the stale response overwrites the newer one. -/
theorem stale_response_overwrites_newer :
    (runUI staleSchedule).result = some 1 ∧
    lastStarted staleSchedule = some 2 ∧
    (runUI staleSchedule).result ≠ lastStarted staleSchedule :=
  ⟨rfl, rfl, by decide⟩

/-- C2 as amended: the displayed result belongs to the invocation whose
response settled last against the page state, whatever the start order: the
code has no stale-response suppression. -/
theorem displayed_result_is_last_settled (evs : List UIEvent) (i : Nat) :
    (runUI (evs ++ [UIEvent.settleOk i])).result = some i := by
  unfold runUI
  rw [List.foldl_append]
  rfl

/-- C3: every success of the orchestrator is the payload of a validated
attempt and that attempt is the last event of the run; conversely, whenever a
performed call validated successfully, the run returns exactly that payload
as success and makes no further calls after it — the only success exit. -/
theorem searchDictionary_first_validated_success (k : String) (bh : Behavior) :
    (∀ d, (searchDictionary (some k) bh).1 = .success d →
      ∃ b a, (searchDictionary (some k) bh).2.getLast? =
          some (Event.call b a) ∧ attemptResult bh b a = .ok d) ∧
    (∀ b a d, Event.call b a ∈ (searchDictionary (some k) bh).2 →
      attemptResult bh b a = .ok d →
      (searchDictionary (some k) bh).1 = .success d ∧
        (searchDictionary (some k) bh).2.getLast? = some (Event.call b a)) := by
  constructor
  · intro d hs
    rw [searchDictionary_trace]
    exact runModels_success bh _ _ d ((searchDictionary_success_iff k bh d).mp hs)
  · intro b a d hmem hok
    rw [searchDictionary_trace] at hmem
    obtain ⟨hres, hlast⟩ := runModels_call_ok bh _ _ b a d hmem hok
    refine ⟨(searchDictionary_success_iff k bh d).mpr hres, ?_⟩
    rw [searchDictionary_trace]
    exact hlast

/-- C3 witness: backend 0 fails transiently twice, backend 1 validates at its
first attempt; the run succeeds with that payload and the call to backend 1
is the last event. -/
theorem searchDictionary_first_validated_success_witness :
    (searchDictionary (some "key") bhFallback).1 = .success fallbackEntry ∧
      (searchDictionary (some "key") bhFallback).2.getLast? =
        some (Event.call 1 0) :=
  (searchDictionary_first_validated_success "key" bhFallback).2 1 0
    fallbackEntry (by decide) (by rfl)

/-- C4: every run makes at most two calls per backend; a second attempt on a
backend happens only after a transient first failure of that backend and is
preceded by the fixed 1000 ms pause (the trace contains the contiguous
segment call, sleep, retry); a non-transient first failure means the second
attempt never happens; and a timed-out call is the transient timeout
failure. -/
theorem searchDictionary_retry_budget (k : String) (bh : Behavior) :
    (∀ b, countCallsTo b (searchDictionary (some k) bh).2 ≤ 2) ∧
    (∀ b, Event.call b 1 ∈ (searchDictionary (some k) bh).2 →
      ∃ msg, attemptResult bh b 0 = .error msg ∧ transientMsg msg = true ∧
        hasSubList [Event.call b 0, Event.sleep 1000, Event.call b 1]
          (searchDictionary (some k) bh).2 = true) ∧
    (∀ b msg, attemptResult bh b 0 = .error msg → transientMsg msg = false →
      Event.call b 1 ∉ (searchDictionary (some k) bh).2) ∧
    (∀ b a, bh b a = .timeout →
      attemptResult bh b a = .error timeoutMessage ∧
        transientMsg timeoutMessage = true) := by
  refine ⟨?_, ?_, ?_, ?_⟩
  · intro b
    rw [searchDictionary_trace]
    exact runModels_countCalls bh _ none b (List.nodup_range _)
  · intro b hmem
    rw [searchDictionary_trace] at hmem
    obtain ⟨m, hm, hmt, hsub⟩ := runModels_retry bh _ none b hmem
    refine ⟨m, hm, hmt, ?_⟩
    rw [searchDictionary_trace]
    exact hsub
  · intro b msg hmsg hnt hmem
    rw [searchDictionary_trace] at hmem
    obtain ⟨m, hm, hmt, -⟩ := runModels_retry bh _ none b hmem
    rw [hmsg] at hm
    obtain rfl : msg = m := Except.error.inj hm
    simp [hnt] at hmt
  · intro b a hba
    refine ⟨?_, by decide⟩
    unfold attemptResult
    rw [hba]

/-- C4 witness: backend 0 times out (transient, retried after the pause),
backend 1 fails non-transiently (no retry), backend 2 fails with 503. -/
theorem searchDictionary_retry_budget_witness :
    countCallsTo 0 (searchDictionary (some "key") bhMixed).2 ≤ 2 ∧
    (∃ msg, attemptResult bhMixed 0 0 = .error msg ∧ transientMsg msg = true ∧
      hasSubList [Event.call 0 0, Event.sleep 1000, Event.call 0 1]
        (searchDictionary (some "key") bhMixed).2 = true) ∧
    Event.call 1 1 ∉ (searchDictionary (some "key") bhMixed).2 ∧
    attemptResult bhMixed 0 0 = .error timeoutMessage :=
  ⟨(searchDictionary_retry_budget "key" bhMixed).1 0,
   (searchDictionary_retry_budget "key" bhMixed).2.1 0 (by decide),
   (searchDictionary_retry_budget "key" bhMixed).2.2.1 1 "400 bad request"
     (by rfl) (by decide),
   ((searchDictionary_retry_budget "key" bhMixed).2.2.2 0 0 (by rfl)).1⟩

/-- C5: any raw input whose trimmed form still contains a character outside
the inclusive printable ASCII range 0x20 to 0x7E is rejected by the
normalizer with the fixed non-English message and no server request is
made. -/
theorem executeSearch_rejects_non_ascii (raw : String)
    (h : (jsTrim raw).toList.any outsidePrintableAscii = true) :
    executeSearch raw = .rejectNonEnglish ∧
      surfacedError (executeSearch raw) =
        some "Please enter English text only." ∧
      networkRequest (executeSearch raw) = none := by
  have hne : jsTrim raw ≠ "" := by
    intro he
    rw [he] at h
    simp at h
  have hact : executeSearch raw = .rejectNonEnglish := by
    simp only [executeSearch]
    rw [if_neg hne, if_pos h]
  exact ⟨hact, by rw [hact]; rfl, by rw [hact]; rfl⟩

/-- C5 witness: a Japanese query is rejected before any backend call. -/
theorem executeSearch_rejects_non_ascii_witness :
    (jsTrim "こんにちは").toList.any outsidePrintableAscii = true ∧
    (executeSearch "こんにちは" = .rejectNonEnglish ∧
      surfacedError (executeSearch "こんにちは") =
        some "Please enter English text only." ∧
      networkRequest (executeSearch "こんにちは") = none) :=
  ⟨by decide, executeSearch_rejects_non_ascii "こんにちは" (by decide)⟩

/-- C6 counterexample: on all-whitespace input the normalizer silently
returns: no error message is set and no request is made, so no distinct
EmptyInput rejection reason is surfaced to the caller, unlike the non-English
path which does surface its message. -/
theorem executeSearch_empty_input_silent :
    executeSearch "   " = SearchAction.noop ∧
    surfacedError (executeSearch "   ") = none ∧
    networkRequest (executeSearch "   ") = none ∧
    surfacedError SearchAction.rejectNonEnglish =
      some "Please enter English text only." :=
  ⟨rfl, rfl, rfl, rfl⟩

/-- C6 as amended: input that is empty after trimming is dropped before any
network call, but silently: the function returns without surfacing any
rejection reason. -/
theorem executeSearch_empty_input_noop (raw : String)
    (h : jsTrim raw = "") :
    executeSearch raw = .noop ∧ surfacedError (executeSearch raw) = none ∧
      networkRequest (executeSearch raw) = none := by
  have hact : executeSearch raw = .noop := by
    simp [executeSearch, h]
  exact ⟨hact, by rw [hact]; rfl, by rw [hact]; rfl⟩

/-- C6 witness: a tab-and-space input trims to empty and is dropped with no
surfaced error and no request. -/
theorem executeSearch_empty_input_noop_witness :
    jsTrim "\t " = "" ∧
    (executeSearch "\t " = .noop ∧ surfacedError (executeSearch "\t ") = none ∧
      networkRequest (executeSearch "\t ") = none) :=
  ⟨by decide, executeSearch_empty_input_noop "\t " (by decide)⟩

/-- C7: the orchestrator always returns a typed response value: with the API
key absent it returns the configuration failure and performs no backend call
at all, and with a key present every behavior yields either a success or a
failure value — no fault escapes the boundary. -/
theorem searchDictionary_typed_result (bh : Behavior) :
    searchDictionary none bh =
      (.failure "Server configuration error: GEMINI_API_KEY is missing.",
        []) ∧
    (∀ k, (∃ d, (searchDictionary (some k) bh).1 = .success d) ∨
      (∃ e, (searchDictionary (some k) bh).1 = .failure e)) := by
  refine ⟨rfl, ?_⟩
  intro k
  cases hx : (searchDictionary (some k) bh).1 with
  | success d => exact Or.inl ⟨d, rfl⟩
  | failure e => exact Or.inr ⟨e, rfl⟩

/-- C8 counterexample: a response whose term field is the number 5 passes the
truthiness check and is returned as success, so a success does not guarantee
that the term field is a string at all. -/
theorem searchDictionary_success_nonstring_term :
    (searchDictionary (some "key") bhNumTerm).1 = .success numTermEntry ∧
    getField numTermEntry "term" = some (Json.num 5) ∧
    isStringVal (getField numTermEntry "term") = false :=
  ⟨rfl, rfl, rfl⟩

/-- C8 as amended: a success payload always has a truthy term field (in
particular a string term is non-empty) and an array meaning field; and a
parsed response with a falsy or absent term, or a non-array meaning, produces
a non-transient invalid-structure failure for that attempt, never a
success. -/
theorem searchDictionary_success_validated (k : String) (bh : Behavior) :
    (∀ d, (searchDictionary (some k) bh).1 = .success d →
      truthy (getField d "term") = true ∧
      (∀ s, getField d "term" = some (Json.str s) → s ≠ "") ∧
      isArray (getField d "meaning") = true) ∧
    (∀ b a text dd, bh b a = .ok text →
      jsonParse (stripFences text) = some dd →
      ¬(dd ≠ Json.null ∧ truthy (getField dd "term") = true ∧
        isArray (getField dd "meaning") = true) →
      ∃ em, attemptResult bh b a = .error em ∧ transientMsg em = false) := by
  constructor
  · intro d hs
    have hr := (searchDictionary_success_iff k bh d).mp hs
    obtain ⟨b, a, -, hok⟩ := runModels_success bh _ none d hr
    obtain ⟨-, htr, har⟩ := attemptResult_ok_valid hok
    refine ⟨htr, ?_, har⟩
    intro s hsf hse
    rw [hsf] at htr
    subst hse
    simp [truthy] at htr
  · intro b a text dd hb hp hv
    obtain ⟨em, hvp, hnt⟩ := validateParsed_not_ok hv
    refine ⟨em, ?_, hnt⟩
    unfold attemptResult
    simp only [hb, hp]
    exact hvp

/-- C8 witness: a valid minimal payload yields a success whose term is truthy
and whose meaning is an array. -/
theorem searchDictionary_success_validated_witness :
    truthy (getField validEntry "term") = true ∧
    isArray (getField validEntry "meaning") = true :=
  ⟨((searchDictionary_success_validated "key" bhValidEntry).1 validEntry
      rfl).1,
   ((searchDictionary_success_validated "key" bhValidEntry).1 validEntry
      rfl).2.2⟩

/-- C9: the cleanup-then-parse pipeline gives the same parsed object on a
payload wrapped in a json-labelled markdown fence as on the bare payload,
for every payload text. -/
theorem jsonFence_roundTrip (t : String) :
    jsonParse (stripFences ("```json\n" ++ t ++ "\n```")) =
      jsonParse (stripFences t) := by
  rw [stripFences_wrap]

/-- C10: shape validation checks only term truthiness and meaning being an
array: a response whose type is the string noun (outside the closed
word/idiom set) and which lacks the examples field entirely is still returned
as success, unchanged. -/
theorem searchDictionary_success_without_full_schema :
    (searchDictionary (some "key") bhLooseEntry).1 = .success looseEntry ∧
    getField looseEntry "type" = some (Json.str "noun") ∧
    getField looseEntry "type" ≠ some (Json.str "word") ∧
    getField looseEntry "type" ≠ some (Json.str "idiom") ∧
    getField looseEntry "examples" = none := by
  refine ⟨rfl, rfl, ?_, ?_, rfl⟩
  · have he : getField looseEntry "type" = some (Json.str "noun") := rfl
    rw [he]
    intro hc
    injection hc with h1
    injection h1 with h2
    exact absurd h2 (by decide)
  · have he : getField looseEntry "type" = some (Json.str "noun") := rfl
    rw [he]
    intro hc
    injection hc with h1
    injection h1 with h2
    exact absurd h2 (by decide)

end Actionary
